import Mathlib

/-!
Verification of the Pomo distraction-control subsystem.

This file gives a shallow embedding, in Lean, of the logic of the
Electron app in `src/main.js`, `src/preload.js` and `src/renderer.js`
(the second, current revision of `renderer.js`), and proves properties
of that embedding.

Modelling conventions:
* JavaScript strings are Lean `String`s; every string operation the
  source uses (`trim`, `toLowerCase`, `split`, `includes`, `endsWith`,
  regular expressions) is implemented here by structural recursion on
  the character list so that proofs can evaluate inside the kernel.
* `String.prototype.localeCompare` (case-insensitive, locale-aware in
  the spec's words) is modelled as lexicographic comparison of the
  lowercased strings.
* `Array.prototype.sort(cmp)` is guaranteed stable in modern
  JavaScript engines; it is modelled by a stable insertion sort
  `sortBy`.
* Asynchronous callback interleavings (the `exec` callbacks of the
  kill fan-out, the `await` suspension points of the timer functions)
  are made explicit: callback settlement orders are an explicit
  schedule parameter, and each `async` function is linearised into the
  sequence of states observable at its event-loop yield points.
-/

/-! ### Character-level string operations -/

/-- Lowercasing, modelling `String.prototype.toLowerCase` via the
ASCII case fold of `Char.toLower`. -/
def lowerStr (s : String) : String := String.mk (s.data.map Char.toLower)

/-- Lexicographic `≤` on character lists, by character code. -/
def lexLe : List Char → List Char → Bool
  | [], _ => true
  | _ :: _, [] => false
  | a :: as, b :: bs => if a = b then lexLe as bs else decide (a < b)

/-- The comparator the source passes to `sort`:
`(a, b) => a.display.localeCompare(b.display)` is non-positive exactly
when `a` comes weakly first; modelled as case-insensitive
lexicographic order of the strings. -/
def localeLe (a b : String) : Bool := lexLe (lowerStr a).data (lowerStr b).data

/-- Strict version of `localeLe`: `a` compares strictly before `b`. -/
def localeLt (a b : String) : Bool := localeLe a b && !localeLe b a

/-- `String.prototype.trim`, dropping whitespace at both ends. -/
def trimStr (s : String) : String :=
  String.mk (((s.data.dropWhile Char.isWhitespace).reverse.dropWhile
    Char.isWhitespace).reverse)

/-- If `pre` is a prefix of `cs`, return the remainder. -/
def dropPre? : List Char → List Char → Option (List Char)
  | [], cs => some cs
  | _ :: _, [] => none
  | p :: ps, c :: cs => if p = c then dropPre? ps cs else none

/-- `String.prototype.split(sep)` on character lists for a nonempty
separator `s0 :: ss`; occurrences are consumed left to right,
non-overlapping.  Fuel is the length of the input, which every step
strictly decreases (a separator occurrence consumes at least one
character), so the fuel never runs out. -/
def splitCharsFuel (s0 : Char) (ss : List Char) :
    Nat → List Char → List (List Char)
  | _, [] => [[]]
  | 0, _ :: _ => [[]]
  | fuel + 1, c :: rest =>
    match dropPre? (s0 :: ss) (c :: rest) with
    | some rest' => [] :: splitCharsFuel s0 ss fuel rest'
    | none =>
      match splitCharsFuel s0 ss fuel rest with
      | [] => [[c]]
      | h :: t => (c :: h) :: t

/-- `String.prototype.split(sep)` on character lists; the source only
ever splits on nonempty separators. -/
def splitChars (sep cs : List Char) : List (List Char) :=
  match sep with
  | [] => [cs]
  | s0 :: ss => splitCharsFuel s0 ss cs.length cs

/-- `String.prototype.split(sep)` for strings. -/
def splitStr (sep s : String) : List String :=
  (splitChars sep.data s.data).map String.mk

/-- `String.prototype.includes(needle)` (substring containment). -/
def includesStr (needle : String) (s : String) : Bool :=
  go needle.data s.data
where
  go (n : List Char) : List Char → Bool
    | [] => (dropPre? n []).isSome
    | c :: rest => (dropPre? n (c :: rest)).isSome || go n rest

/-- `String.prototype.endsWith(suf)`. -/
def endsWithStr (suf s : String) : Bool :=
  (dropPre? suf.data.reverse s.data.reverse).isSome

/-! ### The descriptor data model and the display sort -/

/-- The uniform `AppDescriptor` record `id/display/detail` exchanged
between main and renderer. -/
structure AppDescriptor where
  id : String
  display : String
  detail : String
deriving DecidableEq, Repr

/-- The sort comparator used everywhere in the source:
ascending by `display` under `localeCompare`. -/
def displayLe (a b : AppDescriptor) : Bool := localeLe a.display b.display

/-- Strict display order (no tie). -/
def displayLt (a b : AppDescriptor) : Bool := localeLt a.display b.display

/-- Stable insertion into a sorted list: the new element goes after
every element that compares weakly before it, which is exactly the
placement a stable sort gives an element appended at the end. -/
def insertSorted (le : α → α → Bool) (a : α) : List α → List α
  | [] => [a]
  | b :: bs => if le b a then b :: insertSorted le a bs else a :: b :: bs

/-- Stable sort by repeated insertion, modelling the guaranteed-stable
`Array.prototype.sort`. -/
def sortBy (le : α → α → Bool) (l : List α) : List α :=
  l.foldl (fun acc a => insertSorted le a acc) []

/-- `appKillList.sort((a, b) => a.display.localeCompare(b.display))`. -/
def sortKill (l : List AppDescriptor) : List AppDescriptor := sortBy displayLe l

/-! ### Kill List Manager (`renderer.js`) -/

/-- The composite key the renderer builds with the template
`id|detail` (backtick template in the source). -/
def uniqueKey (a : AppDescriptor) : String := a.id ++ "|" ++ a.detail

/-- `Array.prototype.findIndex`, with `none` for the source's `-1`. -/
def findIndex (p : α → Bool) : List α → Option Nat
  | [] => none
  | a :: l => if p a then some 0 else (findIndex p l).map (· + 1)

/-- `handleAppSelection` of `renderer.js`: toggle the clicked
descriptor on the kill list by composite key, then re-sort by display
name (the DOM class bookkeeping is elided). -/
def handleAppSelection (l : List AppDescriptor) (d : AppDescriptor) :
    List AppDescriptor :=
  match findIndex (fun app => uniqueKey app == uniqueKey d) l with
  | none => sortKill (l ++ [d])
  | some existingIndex => sortKill (l.eraseIdx existingIndex)

/-- `handleRemoveFromKillList` of `renderer.js`: splice out the entry
at the `data-index` attribute of the clicked row, if in range.  The
index comes through `parseInt`, hence `Int`. -/
def handleRemoveFromKillList (l : List AppDescriptor) (index : Int) :
    List AppDescriptor :=
  if 0 ≤ index ∧ index < (l.length : Int) then l.eraseIdx index.toNat else l

/-- The kill-list portion of `initializeSettings` of `renderer.js`:
`appKillList = JSON.parse(settings.appKillList || '[]')`, with the
catch branch resetting to `[]`.  `none` stands for a missing, empty or
unparsable persisted value, `some l` for a successfully parsed array.
No sorting or deduplication is applied. -/
def initializeKillList (parsed : Option (List AppDescriptor)) :
    List AppDescriptor :=
  parsed.getD []

/-- The spec's sortedness invariant: ascending by display under the
case-insensitive comparison. -/
def killListSorted (l : List AppDescriptor) : Prop :=
  l.Pairwise (fun a b => displayLe a b = true)

/-- Strict sortedness: ascending with no two case-insensitively equal
display names. -/
def killListStrictSorted (l : List AppDescriptor) : Prop :=
  l.Pairwise (fun a b => displayLt a b = true)

/-- The spec's uniqueness invariant: no two entries share the
composite `(id, detail)` key. -/
def killListKeysDistinct (l : List AppDescriptor) : Prop :=
  l.Pairwise (fun a b => uniqueKey a ≠ uniqueKey b)

/-! ### Process Terminator (`ipcMain.on('apps:kill')` in `main.js`) -/

/-- Host platform of the main process. -/
inductive Platform where
  | win32
  | darwin
  | linux
  | other
deriving DecidableEq, Repr

/-- State of one `apps:kill` fan-out: the countdown of callbacks still
pending, the accumulated `killedList`, and the reply payload once
`event.reply('apps:kill-reply', …)` has fired. -/
structure KillState where
  pendingKills : Nat
  killedList : List String
  reply : Option (List String)
deriving DecidableEq, Repr

/-- The per-callback confirmation test of the source:
`!error || (error && error.code !== 128)` — the id is pushed unless
the call failed with exit code 128 (the "target not found" class).
`err = none` models a call with no error object. -/
def killConfirmed (err : Option Int) : Bool :=
  match err with
  | none => true
  | some code => code != 128

/-- One settled `exec` callback for input index `i`: push the original
name on confirmation, decrement `pendingKills`, and reply with the
accumulated list exactly when the countdown reaches zero. -/
def killStep (ids : List String) (err : Nat → Option Int)
    (st : KillState) (i : Nat) : KillState :=
  let killed :=
    if killConfirmed (err i) then st.killedList ++ [ids.getD i ""]
    else st.killedList
  let pending := st.pendingKills - 1
  ⟨pending, killed, if pending = 0 then some killed else st.reply⟩

/-- Run the fan-out for a non-empty input on a supported platform:
all `ids.length` calls are issued up front, and `sched` is the order
in which the OS settles their callbacks (a permutation of the input
indices in any real execution). -/
def runKill (ids : List String) (err : Nat → Option Int)
    (sched : List Nat) : KillState :=
  sched.foldl (killStep ids err) ⟨ids.length, [], none⟩

/-- The whole `apps:kill` handler on a supported platform: the empty
(or absent) input replies `[]` at once with no `exec` issued;
otherwise one `exec` per id is issued and the callbacks settle in
`sched` order.  First component: number of OS calls issued. -/
def killAppsHandler (ids : List String) (err : Nat → Option Int)
    (sched : List Nat) : Nat × KillState :=
  if ids.isEmpty then (0, ⟨0, [], some []⟩)
  else (ids.length, runKill ids err sched)

/-- Modelled from the spec's words, for comparison with `runKill`:
"the subsequence of input ids for which the termination call did not
report a target-not-found class of failure", read off in input
order. -/
def specKillResult (ids : List String) (err : Nat → Option Int) :
    List String :=
  (List.range ids.length).filterMap
    (fun i => if killConfirmed (err i) then some (ids.getD i "") else none)

/-! ### Process Inventory Collector (`ipcMain.handle('apps:list')`) -/

/-- Match `(?:[^"]|"")*"` (field body plus closing quote) at the head
of the input, greedily with backtracking exactly as the regex engine
does: a quote pair is consumed as body text when the remainder still
completes a match, and otherwise the first quote closes the field.
Returns the raw captured body and the rest of the input. -/
def matchBody : List Char → Option (List Char × List Char)
  | [] => none
  | '"' :: '"' :: rest =>
    match matchBody rest with
    | some (cap, r) => some ('"' :: '"' :: cap, r)
    | none => some ([], '"' :: rest)
  | '"' :: rest => some ([], rest)
  | c :: rest =>
    match matchBody rest with
    | some (cap, r) => some (c :: cap, r)
    | none => none

/-- All captures of the global regex `"((?:[^"]|"")*)"` over a line,
scanning left to right as repeated `regex.exec` does.  Fuel is the
length of the input, which each step strictly decreases, so the fuel
never runs out. -/
def findFieldsFuel : Nat → List Char → List (List Char)
  | 0, _ => []
  | fuel + 1, cs =>
    match cs with
    | [] => []
    | '"' :: rest =>
      match matchBody rest with
      | some (cap, r) => cap :: findFieldsFuel fuel r
      | none => findFieldsFuel fuel rest
    | _ :: rest => findFieldsFuel fuel rest

/-- The quoted fields of one CSV line of `tasklist /fo csv /nh`. -/
def findFields (cs : List Char) : List (List Char) :=
  findFieldsFuel cs.length cs

/-- `match[1].replace(/""/g, '"')`: collapse doubled quotes. -/
def unescapeQQ : List Char → List Char
  | '"' :: '"' :: rest => '"' :: unescapeQQ rest
  | c :: rest => c :: unescapeQQ rest
  | [] => []

/-- The static blacklist of the Windows strategy. -/
def win32SystemBlacklist : List String :=
  ["System", "svchost.exe", "conhost.exe", "explorer.exe",
   "taskhostw.exe", "audiodg.exe", "lsass.exe", "wininit.exe",
   "RuntimeBroker.exe", "electron"]

/-- `imageName.replace(/\.exe$/i, '')`: strip one trailing `.exe`
case-insensitively. -/
def stripExeSuffix (s : String) : String :=
  if endsWithStr ".exe" (lowerStr s) = true then
    String.mk (s.data.take (s.length - 4))
  else s

/-- One iteration of the Windows parser's per-line loop, carrying the
insertion-ordered `appMap` as a list keyed by `killId`. -/
def win32ParseLine (acc : List AppDescriptor) (line : String) :
    List AppDescriptor :=
  let fields := (findFields line.data).map (fun cs => String.mk (unescapeQQ cs))
  match fields.head? with
  | none => acc
  | some imageName =>
    if imageName ≠ "" ∧ imageName ∉ win32SystemBlacklist ∧
        5 < imageName.length then
      let killId := trimStr (stripExeSuffix imageName)
      if acc.any (fun b => b.id == killId) then acc
      else acc ++ [⟨killId, killId, imageName⟩]
    else acc

/-- The Windows `parseFunction`: split the trimmed output into lines,
fold the per-line loop, and sort the unique descriptors by display. -/
def win32Parse (stdout : String) : List AppDescriptor :=
  sortKill ((splitStr "\n" (trimStr stdout)).foldl win32ParseLine [])

/-- `replace(/[{}]/g, '')`: drop every brace character. -/
def removeBraces (s : String) : String :=
  String.mk (s.data.filter (fun c => c.toNat != 123 && c.toNat != 125))

/-- The static blacklist of the macOS strategy. -/
def darwinBlacklist : List String :=
  ["Finder", "Dock", "System Settings", "SystemUIServer",
   "ControlCenter", "Electron"]

/-- `part.replace(/[{}]/g, '').split(', ').map(trim).filter(nonempty)`,
shared by the two halves of the macOS output. -/
def parseNameList (part : String) : List String :=
  ((splitStr ", " (removeBraces part)).map trimStr).filter
    (fun s => 0 < s.length)

/-- The macOS `parseFunction`: split the osascript output into the
name list and the identifier list, pair them positionally, drop
blacklisted names and anything containing `electron`, and sort by
display.  The two-list shape check returns `[]` when it fails. -/
def darwinParse (stdout : String) : List AppDescriptor :=
  let parts := splitStr "\x7d, \x7b" (trimStr stdout)
  if parts.length ≠ 2 then []
  else
    let names := parseNameList (parts.getD 0 "")
    let identifiers := parseNameList (parts.getD 1 "")
    let apps := names.enum.foldl (fun acc p =>
      let name := p.2
      let identifier :=
        match identifiers.get? p.1 with
        | some x => if x = "" then name else x
        | none => name
      if name ∉ darwinBlacklist ∧
          includesStr "electron" (lowerStr name) = false then
        acc ++ [⟨name, name, identifier⟩]
      else acc) []
    sortKill apps

/-- The static blacklist of the Linux strategy. -/
def linuxBlacklist : List String :=
  ["systemd", "kworker", "sh", "bash", "zsh", "gnome-shell", "xfwm4",
   "kwin_x11", "dbus-daemon", "Xorg", "electron"]

/-- One iteration of the Linux parser's per-line loop. -/
def linuxParseLine (acc : List AppDescriptor) (line : String) :
    List AppDescriptor :=
  let name := trimStr line
  if 3 < name.length ∧ name ∉ linuxBlacklist ∧
      includesStr "/" name = false then
    if acc.any (fun b => b.id == name) then acc
    else acc ++ [⟨name, name, name⟩]
  else acc

/-- The Linux `parseFunction`. -/
def linuxParse (stdout : String) : List AppDescriptor :=
  sortKill ((splitStr "\n" (trimStr stdout)).foldl linuxParseLine [])

/-- Outcome of the one `exec` call of `apps:list`: the optional error
object's message, and the captured streams. -/
structure ExecResult where
  error : Option String
  stdout : String
  stderr : String
deriving DecidableEq, Repr

/-- The failure test of the exec callback: `error || stderr` (an empty
stderr string is falsy). -/
def execFailed (r : ExecResult) : Bool := r.error.isSome || r.stderr != ""

/-- `error?.message || stderr`. -/
def execErrorMessage (r : ExecResult) : String :=
  match r.error with
  | some msg => if msg = "" then r.stderr else msg
  | none => r.stderr

/-- The shared exec callback of `apps:list`: the failure sentinel, or
the platform's `parseFunction` applied to stdout.  The parsers above
are total, so the source's catch branch (sentinel
`Error parsing list output`) is unreachable in this model. -/
def execListCallback (parseFunction : String → List AppDescriptor)
    (r : ExecResult) : List AppDescriptor :=
  if execFailed r then
    [⟨"Error", "Error fetching list", execErrorMessage r⟩]
  else parseFunction r.stdout

/-- The whole `apps:list` handler: pick the platform strategy, or the
unsupported-platform sentinel (returned before any exec). -/
def listAppsHandler (platform : Platform) (r : ExecResult) :
    List AppDescriptor :=
  match platform with
  | .win32 => execListCallback win32Parse r
  | .darwin => execListCallback darwinParse r
  | .linux => execListCallback linuxParse r
  | .other => [⟨"Unsupported", "Unsupported OS", "N/A"⟩]

/-! ### Settings persistence (`settings:load` / `settings:save`) -/

/-- The settings record the handlers exchange; `appKillList` is the
JSON-encoded string the renderer keeps in its hidden input. -/
structure Settings where
  focusTime : Int
  breakTime : Int
  appKillList : String
  relaunchOptional : Bool
deriving DecidableEq, Repr

/-- What happened when the main process touched the settings file:
the file does not exist, reading or `JSON.parse` threw, or a record
was parsed. -/
inductive LoadOutcome where
  | missing
  | unreadable
  | parsed (s : Settings)
deriving DecidableEq, Repr

/-- The `settings:load` handler: a parsed record is returned verbatim
and every failure path falls through to the literal default object of
the source, whose `appKillList` is the empty string. -/
def loadSettingsHandler : LoadOutcome → Settings
  | .missing => ⟨25, 5, "", true⟩
  | .unreadable => ⟨25, 5, "", true⟩
  | .parsed s => s

/-- The `settings:save` handler: `writeFileSync` inside try/catch,
returning `true` on success and `false` on the catch path. -/
def saveSettingsHandler (writeSucceeded : Bool) : Bool :=
  if writeSucceeded then true else false

/-! ### Session State Machine (`renderer.js` timer functions)

Each `async` function is linearised into the list of states observable
at its event-loop yield points.  An observation carries `joinDone`,
false exactly while an `apps:kill` join issued by this call path is
still pending.  `confirmed` is the structured descriptor list the
pending `killAppsAndReport` promise will resolve with. -/

/-- The three-valued tray signal of `setMode`. -/
inductive TrayMode where
  | focus
  | brk
  | paused
deriving DecidableEq, Repr

/-- The configuration inputs the timer functions read from the DOM:
`parseInt` of the two number inputs (`none` models `NaN`) and the
relaunch checkbox. -/
structure TimerConfig where
  focusInput : Option Int
  breakInput : Option Int
  relaunchChecked : Bool
deriving DecidableEq, Repr

/-- The renderer's mutable session state (DOM presentation elided;
`timerOn` is `timerInterval !== null`, `trayMode` the last `setMode`
signal). -/
structure TimerState where
  isRunning : Bool
  isFocus : Bool
  timeLeft : Int
  killedAppsList : List AppDescriptor
  timerOn : Bool
  trayMode : TrayMode
deriving DecidableEq, Repr

/-- `stopTimer` (pause): clear the running flag and the interval and
signal `paused`. -/
def stopTimer (s : TimerState) : TimerState :=
  { s with isRunning := false, timerOn := false, trayMode := .paused }

/-- `readConfig`: set `timeLeft` to the full duration of the current
mode, substituting the 25/5 defaults when the parsed input is `NaN`
or non-positive (the source also rewrites the input boxes then; that
DOM write is elided). -/
def readConfig (cfg : TimerConfig) (s : TimerState) : TimerState :=
  let newTime : Option Int :=
    if s.isFocus then cfg.focusInput.map (· * 60)
    else cfg.breakInput.map (· * 60)
  match newTime with
  | some t =>
    if t ≤ 0 then { s with timeLeft := (if s.isFocus then 25 else 5) * 60 }
    else { s with timeLeft := t }
  | none => { s with timeLeft := (if s.isFocus then 25 else 5) * 60 }

/-- The inline full-duration computation of `toggleTimer`: only the
`NaN` case falls back to the defaults here (no non-positivity check,
unlike `readConfig`). -/
def fullDurationFor (cfg : TimerConfig) (focus : Bool) : Int :=
  match (if focus then cfg.focusInput else cfg.breakInput) with
  | none => (if focus then 25 else 5) * 60
  | some m => m * 60

/-- `relaunchKilledApps`: when the checkbox is off, just discard the
killed list; when it is on and the list is non-empty, invoke the
(fire-and-forget) relaunch and clear the list.  First component:
whether `window.pomo.relaunchApps` was invoked. -/
def relaunchKilledApps (cfg : TimerConfig) (s : TimerState) :
    Bool × TimerState :=
  if cfg.relaunchChecked = false then (false, { s with killedAppsList := [] })
  else if 0 < s.killedAppsList.length then
    (true, { s with killedAppsList := [] })
  else (false, s)

/-- The reply handler inside `killAppsAndReport`: keep the structured
entries of the current kill list whose id is in the confirmed-id
reply. -/
def confirmedKilledApps (appKillList : List AppDescriptor)
    (killedAppIds : List String) : List AppDescriptor :=
  appKillList.filter (fun app => killedAppIds.contains app.id)

/-- One observable point of an async call path. -/
structure ObsPoint where
  state : TimerState
  joinDone : Bool
deriving DecidableEq, Repr

/-- `toggleTimer`: pause when running; otherwise await the kill join
first when a fresh focus session is starting, and only then set the
running flag, the tray signal and the interval. -/
def toggleTimerTrace (cfg : TimerConfig) (s : TimerState)
    (confirmed : List AppDescriptor) : List ObsPoint :=
  if s.isRunning then [⟨stopTimer s, true⟩]
  else
    let fullDuration := fullDurationFor cfg s.isFocus
    if s.isFocus && s.timeLeft == fullDuration then
      let s1 := { s with killedAppsList := confirmed }
      let s2 := { s1 with
        isRunning := true,
        trayMode := if s1.isFocus then .focus else .brk,
        timerOn := true }
      [⟨s, false⟩, ⟨s2, true⟩]
    else
      let s2 := { s with
        isRunning := true,
        trayMode := if s.isFocus then .focus else .brk,
        timerOn := true }
      [⟨s2, true⟩]

/-- `startTimer` (only called by `switchMode`): set the running flag
first, then — in focus mode — await the kill join, and start the
interval after it resolves. -/
def startTimerTrace (s : TimerState) (confirmed : List AppDescriptor) :
    List ObsPoint :=
  let s1 := { s with isRunning := true }
  if s1.isFocus then
    let s2 := { s1 with killedAppsList := confirmed }
    let s3 := { s2 with timerOn := true }
    [⟨s1, false⟩, ⟨s3, true⟩]
  else
    [⟨{ s1 with timerOn := true }, true⟩]

/-- `switchMode`: stop, flip the mode, reset the clock, signal the new
mode, relaunch on entering break, and restart via `startTimer` (which
is not awaited, so its yield points are the observable ones).  Second
component: whether the Relauncher was invoked. -/
def switchModeTrace (cfg : TimerConfig) (s : TimerState)
    (confirmed : List AppDescriptor) : List ObsPoint × Bool :=
  let s1 := stopTimer s
  let s2 := { s1 with isFocus := !s1.isFocus }
  let s3 := readConfig cfg s2
  let s4 := { s3 with trayMode := if s3.isFocus then .focus else .brk }
  if s4.isFocus then (startTimerTrace s4 confirmed, false)
  else
    let r := relaunchKilledApps cfg s4
    (startTimerTrace r.2 confirmed, r.1)

theorem insertSorted_perm (le : α → α → Bool) (a : α) :
    ∀ l : List α, (insertSorted le a l).Perm (a :: l) := by
  intro l
  induction l with
  | nil => simp [insertSorted]
  | cons b bs ih =>
    by_cases h : le b a = true
    · simpa [insertSorted, h] using
        (List.Perm.trans (List.Perm.cons b ih) (List.Perm.swap a b bs))
    · simp [insertSorted, h]

theorem insertSorted_pairwise (le : α → α → Bool)
    (htrans : ∀ a b c, le a b = true → le b c = true → le a c = true)
    (htot : ∀ a b, (le a b || le b a) = true) (a : α) :
    ∀ l : List α, l.Pairwise (fun x y => le x y = true) →
      (insertSorted le a l).Pairwise (fun x y => le x y = true) := by
  intro l
  induction l with
  | nil => simp [insertSorted]
  | cons b bs ih =>
    intro hp
    rw [List.pairwise_cons] at hp
    by_cases h : le b a = true
    · rw [insertSorted, if_pos h, List.pairwise_cons]
      refine ⟨?_, ih hp.2⟩
      intro x hx
      have hx' := (insertSorted_perm le a bs).mem_iff.mp hx
      rcases List.mem_cons.mp hx' with h1 | h2
      · exact h1 ▸ h
      · exact hp.1 x h2
    · have hab : le a b = true := by
        rcases Bool.or_eq_true_iff.mp (htot a b) with h1 | h1
        · exact h1
        · exact absurd h1 h
      rw [insertSorted, if_neg h, List.pairwise_cons]
      refine ⟨?_, List.pairwise_cons.mpr hp⟩
      intro x hx
      rcases List.mem_cons.mp hx with h1 | h2
      · exact h1 ▸ hab
      · exact htrans a b x hab (hp.1 x h2)

theorem sortBy_perm (le : α → α → Bool) (l : List α) :
    (sortBy le l).Perm l := by
  induction l using List.reverseRecOn with
  | nil => simp [sortBy]
  | append_singleton l a ih =>
    have hs : sortBy le (l ++ [a]) = insertSorted le a (sortBy le l) := by
      simp [sortBy, List.foldl_append]
    rw [hs]
    exact ((insertSorted_perm le a (sortBy le l)).trans
      (List.Perm.cons a ih)).trans (List.perm_append_singleton a l).symm

theorem sortBy_append_singleton (le : α → α → Bool) (l : List α) (a : α) :
    sortBy le (l ++ [a]) = insertSorted le a (sortBy le l) := by
  simp [sortBy, List.foldl_append]

theorem sortBy_pairwise (le : α → α → Bool)
    (htrans : ∀ a b c, le a b = true → le b c = true → le a c = true)
    (htot : ∀ a b, (le a b || le b a) = true) (l : List α) :
    (sortBy le l).Pairwise (fun x y => le x y = true) := by
  induction l using List.reverseRecOn with
  | nil => simp [sortBy]
  | append_singleton l a ih =>
    rw [sortBy_append_singleton]
    exact insertSorted_pairwise le htrans htot a _ ih

/-! ### Order facts about the display comparator -/

theorem lexLe_refl : ∀ as : List Char, lexLe as as = true := by
  intro as
  induction as with
  | nil => rfl
  | cons a as ih => simpa [lexLe] using ih

theorem lexLe_total : ∀ as bs : List Char, (lexLe as bs || lexLe bs as) = true := by
  intro as
  induction as with
  | nil => intro bs; simp [lexLe]
  | cons a as ih =>
    intro bs
    cases bs with
    | nil => simp [lexLe]
    | cons b bs =>
      by_cases hab : a = b
      · subst hab
        simpa [lexLe] using ih bs
      · rcases lt_or_gt_of_ne hab with h | h
        · simp [lexLe, hab, Ne.symm hab, h]
        · simp [lexLe, hab, Ne.symm hab, h]

theorem lexLe_trans : ∀ as bs cs : List Char,
    lexLe as bs = true → lexLe bs cs = true → lexLe as cs = true := by
  intro as
  induction as with
  | nil => intro bs cs _ _; rfl
  | cons a as ih =>
    intro bs cs h1 h2
    cases bs with
    | nil => simp [lexLe] at h1
    | cons b bs =>
      cases cs with
      | nil => simp [lexLe] at h2
      | cons c cs =>
        by_cases hab : a = b
        · subst hab
          by_cases hbc : a = c
          · subst hbc
            simp [lexLe] at h1 h2 ⊢
            exact ih bs cs h1 h2
          · simp [lexLe, hbc] at h2 ⊢
            exact h2
        · simp [lexLe, hab] at h1
          by_cases hbc : b = c
          · subst hbc
            simp [lexLe, hab]
            exact h1
          · simp [lexLe, hbc] at h2
            have hac : a < c := lt_trans h1 h2
            simp [lexLe, ne_of_lt hac, hac]

theorem lexLe_antisymm : ∀ as bs : List Char,
    lexLe as bs = true → lexLe bs as = true → as = bs := by
  intro as
  induction as with
  | nil =>
    intro bs h1 h2
    cases bs with
    | nil => rfl
    | cons b bs => simp [lexLe] at h2
  | cons a as ih =>
    intro bs h1 h2
    cases bs with
    | nil => simp [lexLe] at h1
    | cons b bs =>
      by_cases hab : a = b
      · subst hab
        simp [lexLe] at h1 h2
        exact congrArg (a :: ·) (ih bs h1 h2)
      · simp [lexLe, hab, Ne.symm hab] at h1 h2
        exact absurd h2 (not_lt_of_gt h1)

theorem displayLe_total (a b : AppDescriptor) :
    (displayLe a b || displayLe b a) = true :=
  lexLe_total _ _

theorem displayLe_trans (a b c : AppDescriptor) :
    displayLe a b = true → displayLe b c = true → displayLe a c = true :=
  lexLe_trans _ _ _

theorem displayLt_irrefl (a : AppDescriptor) : displayLt a a = false := by
  have h := lexLe_refl (lowerStr a.display).data
  simp [displayLt, localeLt, localeLe, h]

theorem displayLt_le (a b : AppDescriptor) :
    displayLt a b = true → displayLe a b = true := by
  intro h
  have := Bool.and_eq_true_iff.mp h
  exact this.1

theorem strictSorted_sorted {l : List AppDescriptor} :
    killListStrictSorted l → killListSorted l := by
  intro h
  exact h.imp (fun hxy => displayLt_le _ _ hxy)

theorem strictSorted_antisym {l : List AppDescriptor}
    (h : killListStrictSorted l) :
    ∀ a ∈ l, ∀ b ∈ l, displayLe a b = true → displayLe b a = true → a = b := by
  intro a ha b hb hab hba
  by_cases heq : a = b
  · exact heq
  · exfalso
    have hsym : Symmetric (fun x y : AppDescriptor =>
        displayLt x y = true ∨ displayLt y x = true) := by
      intro x y hxy
      exact hxy.symm
    have h2 := (h.imp (fun hxy => Or.inl hxy)).forall hsym
    rcases h2 ha hb heq with hlt | hlt
    · rw [displayLt, localeLt] at hlt
      rw [displayLe] at hba
      simp [hba] at hlt
    · rw [displayLt, localeLt] at hlt
      rw [displayLe] at hab
      simp [hab] at hlt

/-- Two sorted lists that are permutations of each other are equal
when the order admits no tie between distinct elements of them. -/
theorem sorted_perm_eq (le : α → α → Bool) :
    ∀ {l₁ l₂ : List α}, l₁.Perm l₂ →
      l₁.Pairwise (fun x y => le x y = true) →
      l₂.Pairwise (fun x y => le x y = true) →
      (∀ a ∈ l₂, ∀ b ∈ l₂, le a b = true → le b a = true → a = b) →
      l₁ = l₂ := by
  intro l₁ l₂ hperm h1 h2 hanti
  induction l₂ generalizing l₁ with
  | nil => exact hperm.eq_nil
  | cons b t ih =>
    cases l₁ with
    | nil => exact absurd hperm.symm (List.cons_ne_nil b t ∘ List.Perm.eq_nil)
    | cons a t1 =>
      have hab : a = b := by
        by_cases heq : a = b
        · exact heq
        · have hain : a ∈ b :: t := hperm.mem_iff.mp (List.mem_cons_self a t1)
          have hbin : b ∈ a :: t1 := hperm.symm.mem_iff.mp (List.mem_cons_self b t)
          have hba : le b a = true := by
            rcases List.mem_cons.mp hain with h | h
            · exact absurd h heq
            · exact (List.pairwise_cons.mp h2).1 a h
          have hab2 : le a b = true := by
            rcases List.mem_cons.mp hbin with h | h
            · exact absurd h.symm heq
            · exact (List.pairwise_cons.mp h1).1 b h
          exact hanti a (hperm.mem_iff.mp (List.mem_cons_self a t1)) b
            (List.mem_cons_self b t) hab2 hba
      subst hab
      have htail : t1.Perm t := hperm.cons_inv
      have := ih htail (List.pairwise_cons.mp h1).2 (List.pairwise_cons.mp h2).2
        (fun x hx y hy => hanti x (List.mem_cons_of_mem _ hx) y
          (List.mem_cons_of_mem _ hy))
      rw [this]

/-! ### `findIndex` and erasure -/

theorem findIndex_none_iff (p : α → Bool) :
    ∀ l : List α, findIndex p l = none ↔ ∀ a ∈ l, p a = false := by
  intro l
  induction l with
  | nil => simp [findIndex]
  | cons a t ih =>
    by_cases hp : p a = true
    · simp [findIndex, hp]
    · rw [Bool.not_eq_true] at hp
      simp [findIndex, hp, ih]

theorem findIndex_some_exists (p : α → Bool) :
    ∀ (l : List α) (i : Nat), findIndex p l = some i →
      ∃ x ∈ l, p x = true := by
  intro l
  induction l with
  | nil => intro i h; simp [findIndex] at h
  | cons a t ih =>
    intro i h
    by_cases hp : p a = true
    · exact ⟨a, List.mem_cons_self a t, hp⟩
    · rw [Bool.not_eq_true] at hp
      simp [findIndex, hp] at h
      rcases h with ⟨j, hj, _⟩
      rcases ih j hj with ⟨x, hx, hpx⟩
      exact ⟨x, List.mem_cons_of_mem _ hx, hpx⟩

/-- Erasing at the found index removes the unique match: when at most
one element satisfies `p`, `findIndex`-plus-`splice` is exactly the
filter that keeps the non-matching elements. -/
theorem eraseIdx_findIndex (p : α → Bool) :
    ∀ (l : List α) (i : Nat), findIndex p l = some i → l.countP p ≤ 1 →
      l.eraseIdx i = l.filter (fun a => !p a) := by
  intro l
  induction l with
  | nil => intro i h; simp [findIndex] at h
  | cons a t ih =>
    intro i h hc
    by_cases hp : p a = true
    · simp [findIndex, hp] at h
      subst h
      rw [List.countP_cons_of_pos p t hp] at hc
      have ht : t.countP p = 0 := by omega
      have hall := List.countP_eq_zero.mp ht
      have : t.filter (fun a => !p a) = t := by
        rw [List.filter_eq_self]
        intro x hx
        simpa using hall x hx
      simp [List.eraseIdx, List.filter_cons, hp, this]
    · rw [Bool.not_eq_true] at hp
      simp [findIndex, hp] at h
      rcases h with ⟨j, hj, hij⟩
      rw [List.countP_cons_of_neg p t (by simp [hp])] at hc
      subst hij
      simp [List.eraseIdx, List.filter_cons, hp, ih j hj hc]

/-! ### Facts about the display sort of the kill list -/

theorem sortKill_perm (l : List AppDescriptor) : (sortKill l).Perm l :=
  sortBy_perm displayLe l

theorem sortKill_sorted (l : List AppDescriptor) :
    killListSorted (sortKill l) :=
  sortBy_pairwise displayLe displayLe_trans displayLe_total l

theorem keysDistinct_of_perm {l₁ l₂ : List AppDescriptor}
    (hperm : l₁.Perm l₂) (h : killListKeysDistinct l₁) :
    killListKeysDistinct l₂ :=
  (hperm.pairwise_iff (fun hxy => Ne.symm hxy)).mp h

/-- C4 (amended): a toggle always leaves the kill list sorted by
display and preserves key-uniqueness; removal through the display
list preserves sortedness and key-uniqueness; loading installs the
persisted array verbatim, so the invariants hold after a load only if
the persisted data already satisfied them. -/
theorem killList_mutation_invariants :
    (∀ (l : List AppDescriptor) (d : AppDescriptor),
      killListSorted (handleAppSelection l d)) ∧
    (∀ (l : List AppDescriptor) (d : AppDescriptor),
      killListKeysDistinct l → killListKeysDistinct (handleAppSelection l d)) ∧
    (∀ (l : List AppDescriptor) (i : Int),
      killListSorted l → killListSorted (handleRemoveFromKillList l i)) ∧
    (∀ (l : List AppDescriptor) (i : Int),
      killListKeysDistinct l →
        killListKeysDistinct (handleRemoveFromKillList l i)) ∧
    (∀ parsed : List AppDescriptor, initializeKillList (some parsed) = parsed) := by
  refine ⟨?_, ?_, ?_, ?_, ?_⟩
  · intro l d
    cases h : findIndex (fun app => uniqueKey app == uniqueKey d) l with
    | none => simpa only [handleAppSelection, h] using sortKill_sorted (l ++ [d])
    | some i => simpa only [handleAppSelection, h] using sortKill_sorted (l.eraseIdx i)
  · intro l d hk
    cases h : findIndex (fun app => uniqueKey app == uniqueKey d) l with
    | none =>
      simp only [handleAppSelection, h]
      refine keysDistinct_of_perm (sortKill_perm (l ++ [d])).symm ?_
      rw [killListKeysDistinct, List.pairwise_append]
      refine ⟨hk, List.pairwise_singleton _ _, ?_⟩
      intro a ha b hb
      rw [List.mem_singleton] at hb
      subst hb
      have hfa := (findIndex_none_iff _ l).mp h a ha
      intro hcontra
      rw [hcontra] at hfa
      simp at hfa
    | some i =>
      simp only [handleAppSelection, h]
      refine keysDistinct_of_perm (sortKill_perm (l.eraseIdx i)).symm ?_
      exact hk.sublist (List.eraseIdx_sublist l i)
  · intro l i hs
    rw [handleRemoveFromKillList]
    split
    · exact hs.sublist (List.eraseIdx_sublist l i.toNat)
    · exact hs
  · intro l i hk
    rw [handleRemoveFromKillList]
    split
    · exact hk.sublist (List.eraseIdx_sublist l i.toNat)
    · exact hk
  · intro parsed
    rfl

/-- C4 counterexample: the load path installs the persisted array
verbatim, so loading an unsorted persisted kill list leaves the list
unsorted — no mutation-invariant holds on that path. -/
theorem killList_load_counterexample :
    initializeKillList (some [⟨"b", "b", "b"⟩, ⟨"a", "a", "a"⟩]) =
      [⟨"b", "b", "b"⟩, ⟨"a", "a", "a"⟩] ∧
    ¬ killListSorted [⟨"b", "b", "b"⟩, ⟨"a", "a", "a"⟩] := by
  refine ⟨rfl, fun hs => ?_⟩
  rw [killListSorted] at hs
  have := (List.pairwise_cons.mp hs).1 ⟨"a", "a", "a"⟩ (by simp)
  revert this
  decide

/-- Witness for the amended C4 at a concrete input. -/
theorem killList_mutation_invariants_witness :
    killListKeysDistinct (handleAppSelection
      [⟨"a", "a", "a"⟩] ⟨"b", "b", "b"⟩) :=
  killList_mutation_invariants.2.1 [⟨"a", "a", "a"⟩] ⟨"b", "b", "b"⟩
    (by rw [killListKeysDistinct]; exact List.pairwise_singleton _ _)

/-- At most one entry of a strictly sorted list can carry the toggled
descriptor's composite key. -/
theorem countP_key_le_one (d : AppDescriptor) :
    ∀ l : List AppDescriptor, killListStrictSorted l →
      (∀ x ∈ l, uniqueKey x = uniqueKey d → x = d) →
      l.countP (fun app => uniqueKey app == uniqueKey d) ≤ 1 := by
  intro l
  induction l with
  | nil => intro _ _; simp
  | cons a t ih =>
    intro hs hk
    rw [killListStrictSorted, List.pairwise_cons] at hs
    by_cases hp : (uniqueKey a == uniqueKey d) = true
    · have had : a = d := hk a (List.mem_cons_self a t) (beq_iff_eq.mp hp)
      rw [List.countP_cons_of_pos (fun app => uniqueKey app == uniqueKey d) t hp]
      have ht : t.countP (fun app => uniqueKey app == uniqueKey d) = 0 := by
        rw [List.countP_eq_zero]
        intro x hx hpx
        have hxd : x = d := hk x (List.mem_cons_of_mem _ hx) (beq_iff_eq.mp hpx)
        have hlt := hs.1 x hx
        rw [hxd, ← had, displayLt_irrefl] at hlt
        exact Bool.false_ne_true hlt
      omega
    · rw [List.countP_cons_of_neg (fun app => uniqueKey app == uniqueKey d) t hp]
      exact ih hs.2 (fun x hx => hk x (List.mem_cons_of_mem _ hx))

/-- C5 (amended): a double toggle is the identity on kill lists that
are strictly sorted by display (no case-insensitive display ties) and
in which any entry carrying the toggled descriptor's composite key is
that descriptor itself.  On other lists — an unsorted list installed
by the load path, or a tie with another display name — a double
toggle instead leaves the re-sorted list. -/
theorem toggle_involution (l : List AppDescriptor) (d : AppDescriptor)
    (hsort : killListStrictSorted l)
    (hkey : ∀ x ∈ l, uniqueKey x = uniqueKey d → x = d) :
    handleAppSelection (handleAppSelection l d) d = l := by
  have hle : killListSorted l := strictSorted_sorted hsort
  cases h : findIndex (fun app => uniqueKey app == uniqueKey d) l with
  | none =>
    simp only [handleAppSelection, h]
    have hperm1 : (sortKill (l ++ [d])).Perm (l ++ [d]) := sortKill_perm _
    have h0 : l.countP (fun app => uniqueKey app == uniqueKey d) = 0 :=
      List.countP_eq_zero.mpr (by
        intro x hx
        have := (findIndex_none_iff _ l).mp h x hx
        simp [this])
    have hcount :
        (sortKill (l ++ [d])).countP (fun app => uniqueKey app == uniqueKey d)
          = 1 := by
      rw [hperm1.countP_eq, List.countP_append, h0]
      simp [List.countP_cons]
    have hdmem : d ∈ sortKill (l ++ [d]) :=
      hperm1.symm.subset (by simp)
    have hfind2 : ∃ j, findIndex
        (fun app => uniqueKey app == uniqueKey d) (sortKill (l ++ [d]))
          = some j := by
      cases hf : findIndex
          (fun app => uniqueKey app == uniqueKey d) (sortKill (l ++ [d])) with
      | some j => exact ⟨j, rfl⟩
      | none =>
        have hall := (findIndex_none_iff _ _).mp hf d hdmem
        simp at hall
    rcases hfind2 with ⟨j, hj⟩
    simp only [handleAppSelection, hj]
    have herase := eraseIdx_findIndex
      (fun app => uniqueKey app == uniqueKey d) (sortKill (l ++ [d])) j hj
      (by rw [hcount])
    rw [herase]
    have hfperm :
        ((sortKill (l ++ [d])).filter
          (fun a => !(uniqueKey a == uniqueKey d))).Perm l := by
      refine (hperm1.filter _).trans ?_
      rw [List.filter_append]
      have h1 : l.filter (fun a => !(uniqueKey a == uniqueKey d)) = l :=
        List.filter_eq_self.mpr (by
          intro x hx
          have := (findIndex_none_iff _ l).mp h x hx
          simp [this])
      have h2 : [d].filter (fun a => !(uniqueKey a == uniqueKey d)) = [] := by
        simp [List.filter_cons]
      rw [h1, h2, List.append_nil]
    exact sorted_perm_eq displayLe ((sortKill_perm _).trans hfperm)
      (sortKill_sorted _) hle (strictSorted_antisym hsort)
  | some i =>
    simp only [handleAppSelection, h]
    have hcle := countP_key_le_one d l hsort hkey
    have herase := eraseIdx_findIndex
      (fun app => uniqueKey app == uniqueKey d) l i h hcle
    rw [herase]
    have hfsub : (l.filter
        (fun a => !(uniqueKey a == uniqueKey d))).Sublist l :=
      List.filter_sublist l
    have hfsorted : killListSorted
        (l.filter (fun a => !(uniqueKey a == uniqueKey d))) :=
      List.Pairwise.sublist hfsub hle
    have hfstrict : killListStrictSorted
        (l.filter (fun a => !(uniqueKey a == uniqueKey d))) :=
      List.Pairwise.sublist hfsub hsort
    have ht1 : sortKill (l.filter (fun a => !(uniqueKey a == uniqueKey d)))
        = l.filter (fun a => !(uniqueKey a == uniqueKey d)) :=
      sorted_perm_eq displayLe (sortKill_perm _) (sortKill_sorted _) hfsorted
        (strictSorted_antisym hfstrict)
    rw [ht1]
    have hnone : findIndex (fun app => uniqueKey app == uniqueKey d)
        (l.filter (fun a => !(uniqueKey a == uniqueKey d))) = none := by
      rw [findIndex_none_iff]
      intro x hx
      have := (List.mem_filter.mp hx).2
      simpa using this
    simp only [handleAppSelection, hnone]
    have hcp1 : l.countP (fun app => uniqueKey app == uniqueKey d) = 1 := by
      have hge : l.countP (fun app => uniqueKey app == uniqueKey d) ≠ 0 := by
        intro hz
        have hall := List.countP_eq_zero.mp hz
        rcases findIndex_some_exists _ l i h with ⟨x, hx, hpx⟩
        exact (hall x hx) hpx
      omega
    have hfd : l.filter (fun app => uniqueKey app == uniqueKey d) = [d] := by
      have hlen : (l.filter (fun app => uniqueKey app == uniqueKey d)).length
          = 1 := by
        rw [← List.countP_eq_length_filter, hcp1]
      rcases List.length_eq_one.mp hlen with ⟨x, hx⟩
      have hxmem : x ∈ l.filter (fun app => uniqueKey app == uniqueKey d) := by
        simp [hx]
      have hxin := List.mem_filter.mp hxmem
      have : x = d := hkey x hxin.1 (beq_iff_eq.mp hxin.2)
      rw [hx, this]
    have hperml :
        ((l.filter (fun a => !(uniqueKey a == uniqueKey d))) ++ [d]).Perm l := by
      have hfap := List.filter_append_perm
        (fun app => uniqueKey app == uniqueKey d) l
      rw [hfd] at hfap
      exact List.perm_append_comm.trans hfap
    exact sorted_perm_eq displayLe ((sortKill_perm _).trans hperml)
      (sortKill_sorted _) hle (strictSorted_antisym hsort)

/-- C5 counterexample: on an unsorted kill list — reachable, since the
load path installs persisted data verbatim — toggling an absent
descriptor twice yields the sorted list, not the prior state. -/
theorem toggle_involution_counterexample :
    handleAppSelection (handleAppSelection
        [⟨"b", "b", "b"⟩, ⟨"a", "a", "a"⟩] ⟨"c", "c", "c"⟩) ⟨"c", "c", "c"⟩
      ≠ [⟨"b", "b", "b"⟩, ⟨"a", "a", "a"⟩] := by
  decide

/-- Witness for the amended C5 at a concrete input. -/
theorem toggle_involution_witness :
    handleAppSelection (handleAppSelection
        [⟨"a", "a", "a"⟩] ⟨"c", "c", "c"⟩) ⟨"c", "c", "c"⟩
      = [⟨"a", "a", "a"⟩] :=
  toggle_involution [⟨"a", "a", "a"⟩] ⟨"c", "c", "c"⟩
    (by rw [killListStrictSorted]; exact List.pairwise_singleton _ _)
    (by decide)

/-! ### The kill fan-out join barrier -/

theorem getD_mem_of_lt {ids : List String} {i : Nat} (h : i < ids.length) :
    ids.getD i "" ∈ ids := by
  rw [List.getD_eq_getElem?_getD, List.getElem?_eq_getElem h]
  exact List.getElem_mem h

theorem runKill_append (ids : List String) (err : Nat → Option Int)
    (sched : List Nat) (i : Nat) :
    runKill ids err (sched ++ [i]) =
      killStep ids err (runKill ids err sched) i := by
  simp [runKill, List.foldl_append]

theorem killStep_pendingKills (ids : List String) (err : Nat → Option Int)
    (st : KillState) (i : Nat) :
    (killStep ids err st i).pendingKills = st.pendingKills - 1 := rfl

theorem killStep_killedList (ids : List String) (err : Nat → Option Int)
    (st : KillState) (i : Nat) :
    (killStep ids err st i).killedList =
      (if killConfirmed (err i) = true then st.killedList ++ [ids.getD i ""]
       else st.killedList) := rfl

theorem killStep_reply (ids : List String) (err : Nat → Option Int)
    (st : KillState) (i : Nat) :
    (killStep ids err st i).reply =
      (if st.pendingKills - 1 = 0 then some ((killStep ids err st i).killedList)
       else st.reply) := rfl

/-- The running invariant of the fan-out: after any prefix of the
settlement schedule, the countdown equals the number of callbacks
still pending, the accumulated list collects exactly the settled
confirmations in settlement order, and the reply has fired exactly
when every callback has settled. -/
theorem runKill_invariant (ids : List String) (err : Nat → Option Int) :
    ∀ sched : List Nat, sched.length ≤ ids.length →
      (runKill ids err sched).pendingKills = ids.length - sched.length ∧
      (runKill ids err sched).killedList = sched.filterMap
        (fun i => if killConfirmed (err i) = true then some (ids.getD i "")
          else none) ∧
      (runKill ids err sched).reply =
        (if 0 < ids.length ∧ sched.length = ids.length
         then some ((runKill ids err sched).killedList) else none) := by
  intro sched
  induction sched using List.reverseRecOn with
  | nil =>
    intro _
    refine ⟨rfl, rfl, ?_⟩
    rw [if_neg]
    · rfl
    · rintro ⟨h1, h2⟩
      rw [List.length_nil] at h2
      omega
  | append_singleton sched i ih =>
    intro hlen
    rw [List.length_append, List.length_singleton] at hlen
    have hlen' : sched.length ≤ ids.length := by omega
    have IH := ih hlen'
    rw [runKill_append]
    refine ⟨?_, ?_, ?_⟩
    · rw [killStep_pendingKills, IH.1, List.length_append,
        List.length_singleton]
      omega
    · rw [killStep_killedList, IH.2.1, List.filterMap_append]
      by_cases hc : killConfirmed (err i) = true
      · simp [hc]
      · rw [Bool.not_eq_true] at hc
        simp [hc]
    · rw [killStep_reply, IH.1, List.length_append, List.length_singleton]
      by_cases hfin : sched.length + 1 = ids.length
      · rw [if_pos (by omega), if_pos ⟨by omega, hfin⟩]
      · rw [if_neg (by omega), IH.2.2, if_neg (by omega), if_neg (by omega)]

/-- C2: the `apps:kill` handler replies `[]` immediately with no OS
call for an empty input; for a non-empty input it issues one call per
id, stays silent until every callback has settled (whatever their
settlement order), and then replies exactly once with a subset of the
input ids. -/
theorem killApps_join_barrier (ids : List String) (err : Nat → Option Int)
    (sched : List Nat) (hperm : sched.Perm (List.range ids.length)) :
    (ids = [] → killAppsHandler ids err sched = (0, ⟨0, [], some []⟩)) ∧
    (ids ≠ [] →
      (killAppsHandler ids err sched).1 = ids.length ∧
      (∀ pre : List Nat, pre <+: sched → pre ≠ sched →
        (runKill ids err pre).reply = none) ∧
      ∃ result, (runKill ids err sched).reply = some result ∧
        ∀ x ∈ result, x ∈ ids) := by
  have hslen : sched.length = ids.length := by
    rw [hperm.length_eq, List.length_range]
  constructor
  · intro hnil
    subst hnil
    rfl
  · intro hne
    have hpos : 0 < ids.length := List.length_pos.mpr hne
    have hempty : ids.isEmpty = false := by
      cases ids with
      | nil => exact absurd rfl hne
      | cons a t => rfl
    refine ⟨?_, ?_, ?_⟩
    · simp [killAppsHandler, hempty]
    · intro pre hpre hne2
      have hprelen : pre.length ≤ sched.length := hpre.length_le
      have hlt : pre.length < sched.length := by
        rcases Nat.lt_or_ge pre.length sched.length with h | h
        · exact h
        · exact absurd (hpre.eq_of_length (le_antisymm hprelen h)) hne2
      have hr := (runKill_invariant ids err pre (by omega)).2.2
      rw [hr, if_neg (by omega)]
    · have hinv := runKill_invariant ids err sched (by omega)
      refine ⟨(runKill ids err sched).killedList, ?_, ?_⟩
      · rw [hinv.2.2, if_pos ⟨hpos, hslen⟩]
      · intro x hx
        rw [hinv.2.1] at hx
        rcases List.mem_filterMap.mp hx with ⟨i, hi, hfi⟩
        have hirange : i ∈ List.range ids.length := hperm.subset hi
        have hilt : i < ids.length := List.mem_range.mp hirange
        by_cases hc : killConfirmed (err i) = true
        · rw [if_pos hc] at hfi
          rw [← Option.some_inj.mp hfi]
          exact getD_mem_of_lt hilt
        · rw [if_neg hc] at hfi
          simp at hfi

/-- Witness for C2 at a concrete input: two ids, callbacks settling in
reverse order. -/
theorem killApps_join_barrier_witness :
    ∃ result, (runKill ["a", "b"] (fun _ => none) [1, 0]).reply = some result ∧
      ∀ x ∈ result, x ∈ (["a", "b"] : List String) :=
  ((killApps_join_barrier ["a", "b"] (fun _ => none) [1, 0]
    (by decide)).2 (by decide)).2.2

/-- C3 (amended): the reply collects exactly the input ids whose
callback did not fail with the not-found class (exit code 128) — ids
whose call failed for any other reason included — but in
callback-settlement order: the reply is a permutation of the
input-order subsequence the spec describes, and equals it exactly
when the callbacks settle in issue order. -/
theorem terminator_result_characterization (ids : List String)
    (err : Nat → Option Int) (sched : List Nat)
    (hperm : sched.Perm (List.range ids.length)) :
    (runKill ids err sched).killedList.Perm (specKillResult ids err) ∧
    (runKill ids err (List.range ids.length)).killedList =
      specKillResult ids err := by
  have hslen : sched.length = ids.length := by
    rw [hperm.length_eq, List.length_range]
  have h1 := (runKill_invariant ids err sched (by omega)).2.1
  have h2 := (runKill_invariant ids err (List.range ids.length)
    (by rw [List.length_range])).2.1
  constructor
  · rw [h1, specKillResult]
    exact hperm.filterMap _
  · rw [h2, specKillResult]

/-- C3 counterexample: with both callbacks confirming but settling in
reverse order, the reply is the reversal of the input-order
subsequence, not the subsequence itself. -/
theorem terminator_order_counterexample :
    (runKill ["c", "d"] (fun _ => none) [1, 0]).killedList = ["d", "c"] ∧
    specKillResult ["c", "d"] (fun _ => none) = ["c", "d"] ∧
    (runKill ["c", "d"] (fun _ => none) [1, 0]).killedList ≠
      specKillResult ["c", "d"] (fun _ => none) := by
  decide

/-- Witness for the amended C3 at a concrete input, including an id
whose call failed with a non-not-found error (still confirmed) and
one that failed with exit code 128 (dropped). -/
theorem terminator_result_witness :
    (runKill ["c", "d"] (fun i => if i = 0 then some 1 else some 128)
        [1, 0]).killedList.Perm
      (specKillResult ["c", "d"]
        (fun i => if i = 0 then some 1 else some 128)) :=
  (terminator_result_characterization ["c", "d"]
    (fun i => if i = 0 then some 1 else some 128) [1, 0] (by decide)).1

/-! ### Inventory collector properties -/

/-- C6 (amended): whenever the exec callback reports an error object
or captured stderr output, the handler on a supported platform
resolves with exactly one sentinel descriptor.  Output that is merely
unparsable does not produce a sentinel (see the counterexample, where
the macOS shape check yields an empty list instead). -/
theorem listApps_error_sentinel (p : Platform) (r : ExecResult)
    (hp : p ≠ Platform.other) (hfail : execFailed r = true) :
    listAppsHandler p r =
      [⟨"Error", "Error fetching list", execErrorMessage r⟩] := by
  cases p with
  | other => exact absurd rfl hp
  | win32 => simp [listAppsHandler, execListCallback, hfail]
  | darwin => simp [listAppsHandler, execListCallback, hfail]
  | linux => simp [listAppsHandler, execListCallback, hfail]

/-- Witness for C6 at a concrete failing exec call. -/
theorem listApps_error_sentinel_witness :
    listAppsHandler Platform.linux ⟨some "exec failed", "", ""⟩ =
      [⟨"Error", "Error fetching list", "exec failed"⟩] :=
  listApps_error_sentinel Platform.linux ⟨some "exec failed", "", ""⟩
    (by decide) (by decide)

/-- C6 counterexample: on macOS a successful exec whose output lacks
the expected two-list shape resolves with the empty list — not with a
single sentinel descriptor. -/
theorem listApps_unparsable_counterexample :
    listAppsHandler Platform.darwin ⟨none, "not the expected shape", ""⟩ = []
      ∧ (listAppsHandler Platform.darwin
          ⟨none, "not the expected shape", ""⟩).length ≠ 1 := by
  decide

theorem win32ParseLine_invariant (acc : List AppDescriptor) (line : String)
    (h1 : acc.Pairwise (fun a b => a.id ≠ b.id))
    (h2 : ∀ a ∈ acc, 5 < a.detail.length) :
    (win32ParseLine acc line).Pairwise (fun a b => a.id ≠ b.id) ∧
    ∀ a ∈ win32ParseLine acc line, 5 < a.detail.length := by
  rw [win32ParseLine]
  cases hf : ((findFields line.data).map
      (fun cs => String.mk (unescapeQQ cs))).head? with
  | none => exact ⟨h1, h2⟩
  | some imageName =>
    dsimp only
    by_cases hcond : imageName ≠ "" ∧ imageName ∉ win32SystemBlacklist ∧
        5 < imageName.length
    · rw [if_pos hcond]
      by_cases hany : (acc.any
          (fun b => b.id == trimStr (stripExeSuffix imageName))) = true
      · rw [if_pos hany]
        exact ⟨h1, h2⟩
      · rw [if_neg hany]
        constructor
        · rw [List.pairwise_append]
          refine ⟨h1, List.pairwise_singleton _ _, ?_⟩
          intro a ha b hb
          rw [List.mem_singleton] at hb
          subst hb
          intro heq
          apply hany
          rw [List.any_eq_true]
          exact ⟨a, ha, by simp [heq]⟩
        · intro a ha
          rcases List.mem_append.mp ha with h | h
          · exact h2 a h
          · rw [List.mem_singleton] at h
            subst h
            exact hcond.2.2
    · rw [if_neg hcond]
      exact ⟨h1, h2⟩

theorem win32Fold_invariant :
    ∀ (lines : List String) (acc : List AppDescriptor),
      acc.Pairwise (fun a b => a.id ≠ b.id) →
      (∀ a ∈ acc, 5 < a.detail.length) →
      (lines.foldl win32ParseLine acc).Pairwise (fun a b => a.id ≠ b.id) ∧
      ∀ a ∈ lines.foldl win32ParseLine acc, 5 < a.detail.length := by
  intro lines
  induction lines with
  | nil =>
    intro acc h1 h2
    exact ⟨h1, h2⟩
  | cons line rest ih =>
    intro acc h1 h2
    rw [List.foldl_cons]
    have hstep := win32ParseLine_invariant acc line h1 h2
    exact ih _ hstep.1 hstep.2

theorem linuxParseLine_invariant (acc : List AppDescriptor) (line : String)
    (h1 : acc.Pairwise (fun a b => a.id ≠ b.id))
    (h2 : ∀ a ∈ acc, 3 < a.id.length) :
    (linuxParseLine acc line).Pairwise (fun a b => a.id ≠ b.id) ∧
    ∀ a ∈ linuxParseLine acc line, 3 < a.id.length := by
  rw [linuxParseLine]
  by_cases hcond : 3 < (trimStr line).length ∧ trimStr line ∉ linuxBlacklist ∧
      includesStr "/" (trimStr line) = false
  · rw [if_pos hcond]
    by_cases hany : (acc.any (fun b => b.id == trimStr line)) = true
    · rw [if_pos hany]
      exact ⟨h1, h2⟩
    · rw [if_neg hany]
      constructor
      · rw [List.pairwise_append]
        refine ⟨h1, List.pairwise_singleton _ _, ?_⟩
        intro a ha b hb
        rw [List.mem_singleton] at hb
        subst hb
        intro heq
        apply hany
        rw [List.any_eq_true]
        exact ⟨a, ha, by simp [heq]⟩
      · intro a ha
        rcases List.mem_append.mp ha with h | h
        · exact h2 a h
        · rw [List.mem_singleton] at h
          subst h
          exact hcond.1
  · rw [if_neg hcond]
    exact ⟨h1, h2⟩

theorem linuxFold_invariant :
    ∀ (lines : List String) (acc : List AppDescriptor),
      acc.Pairwise (fun a b => a.id ≠ b.id) →
      (∀ a ∈ acc, 3 < a.id.length) →
      (lines.foldl linuxParseLine acc).Pairwise (fun a b => a.id ≠ b.id) ∧
      ∀ a ∈ lines.foldl linuxParseLine acc, 3 < a.id.length := by
  intro lines
  induction lines with
  | nil =>
    intro acc h1 h2
    exact ⟨h1, h2⟩
  | cons line rest ih =>
    intro acc h1 h2
    rw [List.foldl_cons]
    have hstep := linuxParseLine_invariant acc line h1 h2
    exact ih _ hstep.1 hstep.2

/-- C7 (amended): every supported-platform parse is sorted ascending
by display; the Windows and Linux strategies additionally deduplicate
by id and drop names at or below their minimum lengths (5 and 3
characters respectively); the macOS strategy sorts but neither
deduplicates nor length-filters (see the counterexample). -/
theorem inventory_sorted_and_filtered (stdout : String) :
    (killListSorted (win32Parse stdout) ∧
      (win32Parse stdout).Pairwise (fun a b => a.id ≠ b.id) ∧
      ∀ a ∈ win32Parse stdout, 5 < a.detail.length) ∧
    (killListSorted (linuxParse stdout) ∧
      (linuxParse stdout).Pairwise (fun a b => a.id ≠ b.id) ∧
      ∀ a ∈ linuxParse stdout, 3 < a.id.length) ∧
    killListSorted (darwinParse stdout) := by
  refine ⟨⟨sortKill_sorted _, ?_, ?_⟩, ⟨sortKill_sorted _, ?_, ?_⟩, ?_⟩
  · have hfold := win32Fold_invariant (splitStr "\n" (trimStr stdout)) []
      List.Pairwise.nil (by simp)
    exact ((sortKill_perm _).pairwise_iff (fun h => Ne.symm h)).mpr hfold.1
  · intro a ha
    have hfold := win32Fold_invariant (splitStr "\n" (trimStr stdout)) []
      List.Pairwise.nil (by simp)
    exact hfold.2 a ((sortKill_perm _).mem_iff.mp ha)
  · have hfold := linuxFold_invariant (splitStr "\n" (trimStr stdout)) []
      List.Pairwise.nil (by simp)
    exact ((sortKill_perm _).pairwise_iff (fun h => Ne.symm h)).mpr hfold.1
  · intro a ha
    have hfold := linuxFold_invariant (splitStr "\n" (trimStr stdout)) []
      List.Pairwise.nil (by simp)
    exact hfold.2 a ((sortKill_perm _).mem_iff.mp ha)
  · rw [darwinParse]
    split
    · exact List.Pairwise.nil
    · exact sortKill_sorted _

/-- C7 counterexample: the macOS parser performs no deduplication and
no minimum-length filtering — a duplicated one-character process name
in the output yields two identical descriptors. -/
theorem inventory_darwin_dedup_counterexample :
    listAppsHandler Platform.darwin ⟨none, "\x7bA, A\x7d, \x7bx, x\x7d", ""⟩ =
      [⟨"A", "A", "x"⟩, ⟨"A", "A", "x"⟩] := by
  decide

/-! ### Settings persistence contract -/

/-- C9 counterexample: the failure-path default carries the empty
string in `appKillList`, which is neither an empty array nor the
JSON encoding of one. -/
theorem settings_default_counterexample :
    loadSettingsHandler LoadOutcome.missing = ⟨25, 5, "", true⟩ ∧
    (loadSettingsHandler LoadOutcome.missing).appKillList ≠ "[]" := by
  decide

/-- C9 (amended): every load failure (missing file, unreadable or
unparsable contents) yields focusTime 25, breakTime 5, the empty
string as `appKillList` — which the renderer's load path turns into
the empty kill list — and relaunchOptional true; a parsed record is
returned verbatim; the save handler returns `true` on a successful
write and `false` on the catch path, never propagating an
exception. -/
theorem settings_load_save_contract :
    loadSettingsHandler LoadOutcome.missing = ⟨25, 5, "", true⟩ ∧
    loadSettingsHandler LoadOutcome.unreadable = ⟨25, 5, "", true⟩ ∧
    (∀ s : Settings, loadSettingsHandler (LoadOutcome.parsed s) = s) ∧
    (∀ ok : Bool, saveSettingsHandler ok = ok) ∧
    initializeKillList none = [] := by
  refine ⟨rfl, rfl, fun s => rfl, ?_, rfl⟩
  intro ok
  cases ok <;> rfl

/-! ### Session state machine -/

theorem readConfig_spec (cfg : TimerConfig) (s : TimerState) :
    ∃ t, readConfig cfg s = { s with timeLeft := t } := by
  rw [readConfig]
  cases hn : (if s.isFocus then cfg.focusInput.map (· * 60)
      else cfg.breakInput.map (· * 60)) with
  | none => exact ⟨_, rfl⟩
  | some t =>
    dsimp only
    split
    · exact ⟨_, rfl⟩
    · exact ⟨_, rfl⟩

theorem relaunchKilledApps_invoked (cfg : TimerConfig) (s : TimerState) :
    (relaunchKilledApps cfg s).1 =
      (cfg.relaunchChecked && !s.killedAppsList.isEmpty) := by
  rw [relaunchKilledApps]
  by_cases hc : cfg.relaunchChecked = false
  · rw [if_pos hc, hc]
    rfl
  · rw [if_neg hc]
    rw [Bool.not_eq_false] at hc
    cases hk : s.killedAppsList with
    | nil => simp [hk, hc]
    | cons a t => simp [hk, hc]

theorem relaunchKilledApps_clears (cfg : TimerConfig) (s : TimerState) :
    (relaunchKilledApps cfg s).2.killedAppsList = [] := by
  rw [relaunchKilledApps]
  by_cases hc : cfg.relaunchChecked = false
  · rw [if_pos hc]
  · rw [if_neg hc]
    cases hk : s.killedAppsList with
    | nil => simp [hk]
    | cons a t => simp [hk]

theorem relaunchKilledApps_state (cfg : TimerConfig) (s : TimerState) :
    (relaunchKilledApps cfg s).2 =
      { s with killedAppsList := (relaunchKilledApps cfg s).2.killedAppsList } := by
  rw [relaunchKilledApps]
  by_cases hc : cfg.relaunchChecked = false
  · rw [if_pos hc]
  · rw [if_neg hc]
    by_cases hk : 0 < s.killedAppsList.length
    · rw [if_pos hk]
    · rw [if_neg hk]

/-- In break mode `startTimer` has no kill join: one observation, in
which the running flag and the interval are both set. -/
theorem startTimerTrace_break (s : TimerState) (confirmed : List AppDescriptor)
    (h : s.isFocus = false) :
    startTimerTrace s confirmed =
      [⟨{ s with isRunning := true, timerOn := true }, true⟩] := by
  rw [startTimerTrace]
  dsimp only
  rw [if_neg (by rw [h]; exact Bool.false_ne_true)]

/-- In focus mode `startTimer` sets the running flag, then suspends on
the kill join with the interval still unset. -/
theorem startTimerTrace_focus (s : TimerState) (confirmed : List AppDescriptor)
    (h : s.isFocus = true) :
    startTimerTrace s confirmed =
      [⟨{ s with isRunning := true }, false⟩,
       ⟨{ s with
          isRunning := true,
          killedAppsList := confirmed,
          timerOn := true }, true⟩] := by
  rw [startTimerTrace]
  dsimp only
  rw [if_pos (by rw [h])]

/-- The interval only starts after the join in any `startTimer` call
from a stopped state. -/
theorem startTimerTrace_timerOn (s : TimerState)
    (confirmed : List AppDescriptor) (hoff : s.timerOn = false) :
    ∀ o ∈ startTimerTrace s confirmed,
      o.state.timerOn = true → o.joinDone = true := by
  intro o ho htimer
  by_cases h : s.isFocus = true
  · rw [startTimerTrace_focus s confirmed h] at ho
    rcases List.mem_cons.mp ho with h1 | h1
    · subst h1
      exact absurd htimer (by simp [hoff])
    · rw [List.mem_singleton] at h1
      subst h1
      rfl
  · rw [Bool.not_eq_true] at h
    rw [startTimerTrace_break s confirmed h] at ho
    rw [List.mem_singleton] at ho
    subst ho
    rfl

/-- The observable states of a `switchMode` call are exactly those of
the `startTimer` call it ends with, on a state whose interval is
cleared. -/
theorem switchModeTrace_obsList (cfg : TimerConfig) (s : TimerState)
    (confirmed : List AppDescriptor) :
    ∃ s', (switchModeTrace cfg s confirmed).1 = startTimerTrace s' confirmed ∧
      s'.timerOn = false := by
  obtain ⟨t, ht⟩ := readConfig_spec cfg
    { stopTimer s with isFocus := !(stopTimer s).isFocus }
  rw [switchModeTrace]
  dsimp only
  rw [ht]
  split
  · exact ⟨_, rfl, rfl⟩
  · refine ⟨_, rfl, ?_⟩
    rw [relaunchKilledApps_state]
    rfl

/-- C1 (amended): through the user's Start action (`toggleTimer`) a
fresh focus session is never observable as running before the kill
join has completed and the confirmed subset has been stored; through
the automatic Switch into Focus the running flag is set before the
join completes (see the counterexample) — on that path only the tick
scheduler waits for the join. -/
theorem freshFocus_running_after_join :
    (∀ (cfg : TimerConfig) (s : TimerState) (confirmed : List AppDescriptor),
      s.isFocus = true → s.isRunning = false →
      s.timeLeft = fullDurationFor cfg true →
      ∀ o ∈ toggleTimerTrace cfg s confirmed,
        o.state.isRunning = true →
          o.joinDone = true ∧ o.state.killedAppsList = confirmed) ∧
    (∀ (cfg : TimerConfig) (s : TimerState) (confirmed : List AppDescriptor),
      ∀ o ∈ (switchModeTrace cfg s confirmed).1,
        o.state.timerOn = true → o.joinDone = true) := by
  constructor
  · intro cfg s confirmed hfoc hnr hfull o ho hrun
    rw [toggleTimerTrace] at ho
    rw [if_neg (by rw [hnr]; exact Bool.false_ne_true)] at ho
    dsimp only at ho
    rw [if_pos (by rw [hfoc, hfull]; simp)] at ho
    rcases List.mem_cons.mp ho with h | h
    · subst h
      exact absurd hrun (by rw [hnr]; exact Bool.false_ne_true)
    · rw [List.mem_singleton] at h
      subst h
      exact ⟨rfl, rfl⟩
  · intro cfg s confirmed o ho
    obtain ⟨s', hs', hoff⟩ := switchModeTrace_obsList cfg s confirmed
    rw [hs'] at ho
    exact startTimerTrace_timerOn s' confirmed hoff o ho

/-- C1 counterexample: when a break session expires, `switchMode`
calls `startTimer`, which marks the session running and only then
awaits the Terminator join — the state is observable as running with
the join still pending. -/
theorem freshFocus_switch_counterexample :
    ((switchModeTrace ⟨some 25, some 5, true⟩
        ⟨true, false, -1, [], true, TrayMode.brk⟩ []).1.any
      (fun o => o.state.isRunning && !o.joinDone)) = true := by
  decide

/-- Witness for the amended C1 at a concrete fresh focus start. -/
theorem freshFocus_running_after_join_witness :
    (⟨⟨true, true, 1500,
        [⟨"slack", "Slack", "/Applications/Slack.app"⟩], true,
        TrayMode.focus⟩, true⟩ : ObsPoint).joinDone = true ∧
    (⟨⟨true, true, 1500,
        [⟨"slack", "Slack", "/Applications/Slack.app"⟩], true,
        TrayMode.focus⟩, true⟩ : ObsPoint).state.killedAppsList =
      [⟨"slack", "Slack", "/Applications/Slack.app"⟩] :=
  freshFocus_running_after_join.1 ⟨some 25, some 5, true⟩
    ⟨false, true, 1500, [], false, TrayMode.paused⟩
    [⟨"slack", "Slack", "/Applications/Slack.app"⟩]
    rfl rfl (by decide) _ (by decide) rfl

/-- C8: on every Switch from Focus to Break, the Relauncher fires iff
the relaunch flag is set and `killedAppsList` is non-empty, and every
state observable after the transition has an empty
`killedAppsList`. -/
theorem switchMode_break_relaunch (cfg : TimerConfig) (s : TimerState)
    (confirmed : List AppDescriptor) (hfoc : s.isFocus = true) :
    (switchModeTrace cfg s confirmed).2 =
      (cfg.relaunchChecked && !s.killedAppsList.isEmpty) ∧
    ∀ o ∈ (switchModeTrace cfg s confirmed).1,
      o.state.killedAppsList = [] := by
  obtain ⟨t, ht⟩ := readConfig_spec cfg
    { stopTimer s with isFocus := !(stopTimer s).isFocus }
  rw [switchModeTrace]
  dsimp only
  rw [ht]
  split
  case isTrue hcond =>
    exfalso
    simp [stopTimer, hfoc] at hcond
  case isFalse hcond =>
    dsimp only
    constructor
    · rw [relaunchKilledApps_invoked]
      rfl
    · intro o ho
      rw [startTimerTrace_break _ _ ?hf] at ho
      case hf =>
        rw [relaunchKilledApps_state]
        show (!s.isFocus) = false
        rw [hfoc]
        rfl
      rw [List.mem_singleton] at ho
      subst ho
      exact relaunchKilledApps_clears _ _

/-- Witness for C8 at a concrete focus-to-break switch with the flag
set and one killed app. -/
theorem switchMode_break_relaunch_witness :
    (switchModeTrace ⟨some 25, some 5, true⟩
        ⟨true, true, -1, [⟨"a", "a", "a"⟩], true, TrayMode.focus⟩ []).2 =
      (true && !([⟨"a", "a", "a"⟩] : List AppDescriptor).isEmpty) :=
  (switchMode_break_relaunch ⟨some 25, some 5, true⟩
    ⟨true, true, -1, [⟨"a", "a", "a"⟩], true, TrayMode.focus⟩ [] rfl).1

/-- C10: the killed set stored by `killAppsAndReport` is the
subsequence of the current kill list (in kill-list order) whose id
the reply confirms — independent of reply order, and with both
entries kept when two kill-list entries share a confirmed id. -/
theorem killedSet_characterization :
    (∀ (kl : List AppDescriptor) (reply : List String),
      (confirmedKilledApps kl reply).Sublist kl) ∧
    (∀ (kl : List AppDescriptor) (reply : List String) (a : AppDescriptor),
      a ∈ confirmedKilledApps kl reply ↔ a ∈ kl ∧ a.id ∈ reply) ∧
    (∀ (kl : List AppDescriptor) (r1 r2 : List String), r1.Perm r2 →
      confirmedKilledApps kl r1 = confirmedKilledApps kl r2) ∧
    confirmedKilledApps [⟨"x", "A", "1"⟩, ⟨"x", "B", "2"⟩] ["x"] =
      [⟨"x", "A", "1"⟩, ⟨"x", "B", "2"⟩] := by
  refine ⟨?_, ?_, ?_, by decide⟩
  · intro kl reply
    exact List.filter_sublist kl
  · intro kl reply a
    rw [confirmedKilledApps, List.mem_filter, List.elem_iff]
  · intro kl r1 r2 hperm
    apply List.filter_congr
    intro a _
    by_cases h : a.id ∈ r2
    · have e1 : r1.contains a.id = true :=
        List.elem_iff.mpr (hperm.mem_iff.mpr h)
      have e2 : r2.contains a.id = true := List.elem_iff.mpr h
      rw [e1, e2]
    · have h1 : a.id ∉ r1 := fun hx => h (hperm.mem_iff.mp hx)
      have e1 : r1.contains a.id = false :=
        Bool.eq_false_iff.mpr (fun hx => h1 (List.elem_iff.mp hx))
      have e2 : r2.contains a.id = false :=
        Bool.eq_false_iff.mpr (fun hx => h (List.elem_iff.mp hx))
      rw [e1, e2]

/-- Witness for C10: reply order does not matter. -/
theorem killedSet_characterization_witness :
    confirmedKilledApps [⟨"x", "x", "x"⟩] ["y", "x"] =
      confirmedKilledApps [⟨"x", "x", "x"⟩] ["x", "y"] :=
  killedSet_characterization.2.2.1 [⟨"x", "x", "x"⟩] ["y", "x"] ["x", "y"]
    (by decide)

/-- Witness for the amended C7: sortedness of a concrete macOS
inventory result. -/
theorem inventory_sorted_and_filtered_witness :
    killListSorted (darwinParse
      "\x7bSafari, Mail\x7d, \x7bcom.apple.safari, com.apple.mail\x7d") :=
  (inventory_sorted_and_filtered
    "\x7bSafari, Mail\x7d, \x7bcom.apple.safari, com.apple.mail\x7d").2.2
